import Mathlib

/-!
Verification of the VectraDB storage-and-retrieval engine.

The Go sources are shallowly embedded here:
* Go `map[string]V` values are modelled as association lists
  (`List (String × V)`) with lookup / set / remove operations; the nested
  inverted index `map[string]map[string]map[string]bool` becomes nested
  association lists whose innermost id-set is a duplicate-free `List String`.
* Go `float64` arithmetic is modelled over `ℚ`; the two transcendental
  functions used by the code (`math.Sqrt`, `math.Log`) are passed as
  abstract parameters, so every statement holds for the real functions.
* The bbolt durable store is modelled by a boolean `persistOk` that tells
  whether the update transaction commits; the store methods return the
  error (`Option Err`) together with the in-memory state after the call.
* `time.Now()` is modelled by an explicit `now : Nat` clock argument.
-/

namespace VectraDB

/-- Association-list lookup, modelling the read `m[k]` of a Go map. -/
def alookup {β : Type} : List (String × β) → String → Option β
  | [], _ => none
  | (k, v) :: rest, key => if k = key then some v else alookup rest key

/-- Association-list write, modelling the Go map assignment `m[k] = b`. -/
def aset {β : Type} : List (String × β) → String → β → List (String × β)
  | [], key, b => [(key, b)]
  | (k, v) :: rest, key, b =>
      if k = key then (k, b) :: rest else (k, v) :: aset rest key b

/-- Association-list removal, modelling the Go builtin `delete(m, k)`. -/
def aremove {β : Type} : List (String × β) → String → List (String × β)
  | [], _ => []
  | (k, v) :: rest, key =>
      if k = key then aremove rest key else (k, v) :: aremove rest key

/-- The vector entity (Go `models.Vector`).  Timestamps are `Nat` clock
values, metadata is the association-list image of `map[string]string`. -/
structure Vector where
  id : String
  values : List ℚ
  text : String
  metadata : List (String × String)
  createdAt : Nat
  updatedAt : Nat
deriving DecidableEq, Repr

/-- The error taxonomy surfaced by the store (package `errors`). -/
inductive Err where
  | vectorExists
  | vectorNotFound
  | emptyQuery
  | internalError
  | dimensionMismatch
  | zeroMagnitude
deriving DecidableEq, Repr

/-- The inverted metadata index:
`map[string]map[string]map[string]bool` as nested association lists,
the innermost `map[string]bool` becoming the list of ids held. -/
abbrev Index : Type := List (String × List (String × List String))

/-- In-memory state of `boltStore`: the vector cache keyed by id and the
inverted index. -/
structure StoreState where
  vectors : List (String × Vector)
  index : Index
deriving DecidableEq

/-- The id-set the index currently associates to a (key, value) pair
(empty when either level of the map lacks the entry). -/
def idsOf (idx : Index) (key val : String) : List String :=
  ((alookup ((alookup idx key).getD []) val).getD [])

/-- Set-insert into an id-set, modelling `idSet[id] = true`. -/
def insId (ids : List String) (id : String) : List String :=
  if id ∈ ids then ids else ids ++ [id]

/-- One iteration of `addToIndex`: ensure both map levels exist and mark
`index[key][val][id] = true` (`(alookup _ _).getD []` is the freshly made
empty map of the `if !ok` branches). -/
def addPair (idx : Index) (key val id : String) : Index :=
  aset idx key
    (aset ((alookup idx key).getD []) val
      (insId ((alookup ((alookup idx key).getD []) val).getD []) id))

/-- `boltStore.addToIndex`: index every metadata pair of the vector. -/
def addToIndex (idx : Index) (v : Vector) : Index :=
  v.metadata.foldl (fun i kv => addPair i kv.1 kv.2 v.id) idx

/-- One iteration of `removeFromIndex`: drop the id from the id-set of the
pair and prune the value entry when its id-set becomes empty. -/
def removePair (idx : Index) (key val id : String) : Index :=
  match alookup idx key with
  | none => idx
  | some valueMap =>
    match alookup valueMap val with
    | none => idx
    | some idSet =>
      if idSet.filter (· ≠ id) = [] then aset idx key (aremove valueMap val)
      else aset idx key (aset valueMap val (idSet.filter (· ≠ id)))

/-- `boltStore.removeFromIndex`: unindex every metadata pair of the vector. -/
def removeFromIndex (idx : Index) (v : Vector) : Index :=
  v.metadata.foldl (fun i kv => removePair i kv.1 kv.2 v.id) idx

/-- `boltStore.InsertVector`.  `persistOk` is the outcome of the bbolt
update transaction; `now` the value of `time.Now()`.  Returns the error
(if any) together with the in-memory state after the call. -/
def insertVector (persistOk : Bool) (now : Nat) (v : Vector) (s : StoreState) :
    Option Err × StoreState :=
  match alookup s.vectors v.id with
  | some _ => (some .vectorExists, s)
  | none =>
    let v' := { v with createdAt := now, updatedAt := now }
    if persistOk then
      (none, { vectors := aset s.vectors v'.id v', index := addToIndex s.index v' })
    else (some .internalError, s)

/-- `boltStore.UpdateVector`.  Faithful to the source order: the old
vector's metadata is removed from the index *before* the durable
transaction runs. -/
def updateVector (persistOk : Bool) (now : Nat) (id : String) (v : Vector)
    (s : StoreState) : Option Err × StoreState :=
  match alookup s.vectors id with
  | none => (some .vectorNotFound, s)
  | some oldVector =>
    let idx1 := removeFromIndex s.index oldVector
    let v' := { v with id := id, createdAt := oldVector.createdAt, updatedAt := now }
    if persistOk then
      (none, { vectors := aset s.vectors id v', index := addToIndex idx1 v' })
    else (some .internalError, { s with index := idx1 })

/-- `boltStore.DeleteVector`. -/
def deleteVector (persistOk : Bool) (id : String) (s : StoreState) :
    Option Err × StoreState :=
  match alookup s.vectors id with
  | none => (some .vectorNotFound, s)
  | some vector =>
    if persistOk then
      (none, { vectors := aremove s.vectors id, index := removeFromIndex s.index vector })
    else (some .internalError, s)

/-- The three vector mutations, as one operation type. -/
inductive MutOp where
  | insert (now : Nat) (v : Vector)
  | update (now : Nat) (id : String) (v : Vector)
  | delete (id : String)
deriving DecidableEq, Repr

/-- Dispatch a mutation against the store. -/
def applyOp (persistOk : Bool) (op : MutOp) (s : StoreState) :
    Option Err × StoreState :=
  match op with
  | .insert now v => insertVector persistOk now v s
  | .update now id v => updateVector persistOk now id v s
  | .delete id => deleteVector persistOk id s

/-- `boltStore.ListVectors`, taking the cache snapshot in the (arbitrary)
Go map iteration order.  `limit`/`offset` are non-negative here because the
caller normalizes them before the call. -/
def listVectors (vectors : List Vector) (limit offset : Nat) : List Vector :=
  if vectors.length ≤ offset then []
  else (vectors.drop offset).take (min (offset + limit) vectors.length - offset)

/-- Sum of pointwise products accumulated left to right, as in the Go loop
of `cosineSimilarity` (the two lists have equal length when used). -/
def dotProduct (a b : List ℚ) : ℚ :=
  (a.zip b).foldl (fun acc p => acc + p.1 * p.2) 0

/-- Accumulated sum of squares (`magA` / `magB` in the Go loop). -/
def sumSquares (a : List ℚ) : ℚ :=
  a.foldl (fun acc x => acc + x * x) 0

/-- `cosineSimilarity` from `internal/store/search.go` (also
`CosineSimilarity` in the `pkg/store` utilities): dimension check, zero
magnitude check, then dot / (√magA · √magB).  `sqrt` abstracts
`math.Sqrt`. -/
def cosineSimilarity (sqrt : ℚ → ℚ) (a b : List ℚ) : Except Err ℚ :=
  if a.length ≠ b.length then .error .dimensionMismatch
  else
    let magA := sumSquares a
    let magB := sumSquares b
    if magA = 0 ∨ magB = 0 then .error .zeroMagnitude
    else .ok (dotProduct a b / (sqrt magA * sqrt magB))

/-- The candidate-intersection loop of `filterVectors`: fold over the
filters, short-circuiting to an empty candidate set exactly as the Go
code returns early.  `acc = none` means no filter processed yet. -/
def interFold (idx : Index) : List (String × String) → Option (List String) →
    List String
  | [], acc => acc.getD []
  | (key, val) :: rest, acc =>
    match alookup idx key with
    | none => []
    | some valueMap =>
      match alookup valueMap val with
      | none => []
      | some idSet =>
        let acc' := match acc with
          | none => idSet
          | some ids => ids.filter (· ∈ idSet)
        if acc' = [] then [] else interFold idx rest (some acc')

/-- `boltStore.filterVectors`: empty filter set returns the whole cache,
otherwise the cached vectors whose ids survive every per-filter index
lookup. -/
def filterVectors (s : StoreState) (filters : List (String × String)) :
    List Vector :=
  match filters with
  | [] => s.vectors.map (·.2)
  | _ :: _ =>
    let candidateIDs := interFold s.index filters none
    candidateIDs.filterMap (fun id => alookup s.vectors id)

/-- `models.SearchRequest` (the scalar fields are Go `int`). -/
structure SearchRequest where
  query : List ℚ
  topK : Int
  filter : List (String × String)
  page : Int
  limit : Int

/-- `models.SearchResult`. -/
structure SearchResult where
  vector : Vector
  score : ℚ
deriving DecidableEq

/-- `models.SearchResponse`. -/
structure SearchResponse where
  total : Nat
  page : Int
  limit : Int
  results : List SearchResult
deriving DecidableEq

/-- Scoring loop of `SearchVectors`: candidates whose cosine similarity
fails are skipped. -/
def scoreCandidates (sqrt : ℚ → ℚ) (query : List ℚ) (candidates : List Vector) :
    List SearchResult :=
  candidates.filterMap (fun v =>
    match cosineSimilarity sqrt query v.values with
    | .error _ => none
    | .ok score => some ⟨v, score⟩)

/-- `sort.Slice(results, func(i, j) { return results[i].Score > results[j].Score })`:
sort by non-increasing score. -/
def sortByScoreDesc (results : List SearchResult) : List SearchResult :=
  results.mergeSort (fun x y => decide (y.score ≤ x.score))

/-- The Go pagination window `results[start:end]` with
`start = (page-1)*limit`, `end` clamped to the length, and an empty page
when `start` is at or past the end (`page`, `limit` are already
defaulted to be positive). -/
def paginate {α : Type} (results : List α) (page limit : Int) : List α :=
  let start := ((page - 1) * limit).toNat
  if results.length ≤ start then []
  else (results.drop start).take limit.toNat

/-- The sorted, top-k-truncated list of scored candidates of
`SearchVectors` (`results[:req.TopK]` after the sort), with the
`top_k <= 0 -> 10` default applied. -/
def searchTruncated (sqrt : ℚ → ℚ) (s : StoreState) (req : SearchRequest) :
    List SearchResult :=
  (sortByScoreDesc (scoreCandidates sqrt req.query (filterVectors s req.filter))).take
    (if req.topK ≤ 0 then (10 : Int) else req.topK).toNat

/-- `boltStore.SearchVectors`: validation, defaults, filter, score, sort,
top-k truncation, pagination. -/
def searchVectors (sqrt : ℚ → ℚ) (s : StoreState) (req : SearchRequest) :
    Except Err SearchResponse :=
  if req.query = [] then .error .emptyQuery
  else
    let limit := if req.limit ≤ 0 then 10 else req.limit
    let page := if req.page ≤ 0 then 1 else req.page
    if filterVectors s req.filter = [] then .ok ⟨0, page, limit, []⟩
    else
      let truncated := searchTruncated sqrt s req
      .ok ⟨truncated.length, page, limit, paginate truncated page limit⟩

/-- The punctuation set trimmed from tokens (the Go cut-set holds the
period, comma, bangs, question mark, both quote characters - written
here via their code points 34 and 39 - parentheses, square and curly
brackets, colon and semicolon). -/
def isPunct (c : Char) : Bool :=
  c = '.' ∨ c = ',' ∨ c = '!' ∨ c = '?' ∨ c = Char.ofNat 34 ∨
  c = Char.ofNat 39 ∨ c = '(' ∨ c = ')' ∨ c = '[' ∨ c = ']' ∨
  c = Char.ofNat 123 ∨ c = Char.ofNat 125 ∨ c = ':' ∨ c = ';'

/-- `strings.Trim(part, ".,!?\"'()[]\x7b\x7d:;")` over the character list. -/
def trimPunct (cs : List Char) : List Char :=
  ((cs.dropWhile isPunct).reverse.dropWhile isPunct).reverse

/-- `boltStore.tokenize`: lowercase, split on whitespace, trim punctuation
from both ends of each field, drop empties. -/
def tokenize (text : String) : List String :=
  ((text.toList.map Char.toLower).splitOnP (fun c => c.isWhitespace)).filterMap
    (fun part =>
      let part' := trimPunct part
      if part' = [] then none else some (String.mk part'))

/-- Term frequency of `term` in a tokenized document (the count the Go
code reads back from the per-document `freq` map). -/
def termFreq (toks : List String) (term : String) : Nat :=
  (toks.filter (fun t => t = term)).length

/-- Document frequency of `term` over the tokenized corpus (the Go
`termDocCount` map). -/
def docFreq (docTokens : List (List String)) (term : String) : Nat :=
  (docTokens.filter (fun toks => term ∈ toks)).length

/-- The inner scoring loop of `calculateBM25Scores` for one document:
fold over the query terms, skipping terms with `tf = 0` or `df = 0`,
otherwise adding `idf * norm` with `k1 = 3/2`, `b = 3/4`. -/
def bm25DocScore (log : ℚ → ℚ) (queryTerms : List String)
    (docTokens : List (List String)) (avgDocLen : ℚ) (toks : List String) : ℚ :=
  let docLen : ℚ := toks.length
  queryTerms.foldl (fun score term =>
    let tf : ℚ := termFreq toks term
    if tf = 0 then score
    else
      let df : ℚ := docFreq docTokens term
      if df = 0 then score
      else
        let N : ℚ := docTokens.length
        let idf := log (1 + (N - df + 1/2) / (df + 1/2))
        let norm := tf * (3/2 + 1) / (tf + 3/2 * (1 - 3/4 + 3/4 * (docLen / avgDocLen)))
        score + idf * norm) 0

/-- `boltStore.calculateBM25Scores`.  `log` abstracts `math.Log`; the Go
per-document `freq` maps and the corpus `termDocCount` map are read
through `termFreq` / `docFreq`. -/
def calculateBM25Scores (log : ℚ → ℚ) (query : String) (texts : List String) :
    List ℚ :=
  let queryTerms := tokenize query
  if queryTerms = [] then texts.map (fun _ => 0)
  else
    let docTokens := texts.map tokenize
    let totalLen := (docTokens.map List.length).sum
    let avgDocLen : ℚ := (totalLen : ℚ) / (texts.length : ℚ)
    docTokens.map (bm25DocScore log queryTerms docTokens avgDocLen)

/-- `models.HybridSearchRequest`. -/
structure HybridSearchRequest where
  query : String
  queryVector : List ℚ
  vectorWeight : ℚ
  keywordWeight : ℚ
  fuzzyWeight : ℚ
  limit : Int
  page : Int

/-- `models.HybridSearchResult`. -/
structure HybridSearchResult where
  id : String
  text : String
  vectorScore : ℚ
  keywordScore : ℚ
  hybridScore : ℚ
deriving DecidableEq

/-- `models.HybridSearchResponse`. -/
structure HybridSearchResponse where
  total : Nat
  page : Int
  limit : Int
  results : List HybridSearchResult
deriving DecidableEq

/-- The vector-similarity component of a hybrid score: 0 when the cached
vector is empty or when cosine similarity fails (e.g. incompatible
dimensions), instead of failing the query. -/
def vectorScoreOf (sqrt : ℚ → ℚ) (queryVector : List ℚ) (v : Vector) : ℚ :=
  if v.values.length > 0 then
    match cosineSimilarity sqrt queryVector v.values with
    | .ok score => score
    | .error _ => 0
  else 0

/-- Per-vector score construction of `HybridSearch`: the hybrid score is
the weighted sum of the vector score and the BM25 keyword score. -/
def hybridItem (sqrt : ℚ → ℚ) (queryVector : List ℚ) (vw kw : ℚ)
    (v : Vector) (keywordScore : ℚ) : HybridSearchResult :=
  let vectorScore := vectorScoreOf sqrt queryVector v
  ⟨v.id, v.text, vectorScore, keywordScore, vw * vectorScore + kw * keywordScore⟩

/-- The pre-pagination ranked list of `HybridSearch`: one entry per cached
vector, sorted by non-increasing hybrid score. -/
def hybridRanked (sqrt log : ℚ → ℚ) (query : String) (queryVector : List ℚ)
    (vw kw : ℚ) (vectors : List Vector) : List HybridSearchResult :=
  let texts := vectors.map (·.text)
  let bm25Scores := calculateBM25Scores log query texts
  let results := (vectors.zip bm25Scores).map
    (fun p => hybridItem sqrt queryVector vw kw p.1 p.2)
  results.mergeSort (fun x y => decide (y.hybridScore ≤ x.hybridScore))

/-- `boltStore.HybridSearch`: validation, defaults (including the 0.5/0.5
weight fallback when the weights sum to zero), BM25 over the whole cached
corpus, weighted hybrid scores, sort, pagination. -/
def hybridSearch (sqrt log : ℚ → ℚ) (s : StoreState)
    (req : HybridSearchRequest) : Except Err HybridSearchResponse :=
  if req.query = "" then .error .emptyQuery
  else if req.queryVector = [] then .error .emptyQuery
  else
    let limit := if req.limit ≤ 0 then 10 else req.limit
    let page := if req.page ≤ 0 then 1 else req.page
    let vw := if req.vectorWeight + req.keywordWeight = 0 then 1/2 else req.vectorWeight
    let kw := if req.vectorWeight + req.keywordWeight = 0 then 1/2 else req.keywordWeight
    let vectors := s.vectors.map (·.2)
    if vectors = [] then .ok ⟨0, page, limit, []⟩
    else
      let results := hybridRanked sqrt log req.query req.queryVector vw kw vectors
      .ok ⟨results.length, page, limit, paginate results page limit⟩

/-- Well-formedness of a vector as Go produces it: metadata is the image
of a map, so its keys are pairwise distinct. -/
def VectorWf (v : Vector) : Prop := (v.metadata.map (·.1)).Nodup

/-- Well-formedness of the cache association list: distinct keys, every
entry keyed by its vector's id, every vector well formed. -/
def CacheWf (l : List (String × Vector)) : Prop :=
  (l.map (·.1)).Nodup ∧ ∀ p ∈ l, p.1 = p.2.id ∧ VectorWf p.2

/-- Well-formedness of the inverted index: distinct keys at both map
levels and duplicate-free id-sets. -/
def IndexWf (idx : Index) : Prop :=
  (idx.map (·.1)).Nodup ∧
  ∀ e ∈ idx, (e.2.map (·.1)).Nodup ∧ ∀ ve ∈ e.2, ve.2.Nodup

/-- Every value-level entry of the index carries a non-empty id-set
(empty id-sets are pruned by `removeFromIndex`). -/
def NoEmptySets (idx : Index) : Prop :=
  ∀ e ∈ idx, ∀ ve ∈ e.2, ve.2 ≠ []

/-- The index exactly mirrors the metadata of the cached vectors:
every cached metadata pair is indexed under the vector's id, every
indexed id belongs to a cached vector that still carries the pair, and
no empty id-set is retained. -/
def Mirror (s : StoreState) : Prop :=
  (∀ p ∈ s.vectors, ∀ kv ∈ p.2.metadata, p.2.id ∈ idsOf s.index kv.1 kv.2) ∧
  (∀ key val id, id ∈ idsOf s.index key val →
    ∃ p ∈ s.vectors, p.2.id = id ∧ (key, val) ∈ p.2.metadata) ∧
  NoEmptySets s.index

/-- The full store invariant. -/
def Inv (s : StoreState) : Prop :=
  CacheWf s.vectors ∧ IndexWf s.index ∧ Mirror s

/-- The vector argument carried by a mutation is well formed (its
metadata comes from a Go map, hence has distinct keys). -/
def OpWf : MutOp → Prop
  | .insert _ v => VectorWf v
  | .update _ _ v => VectorWf v
  | .delete _ => True

/-- Modelled from the spec's BM25 formula (§4.4), as the refinement
target for `calculateBM25Scores`: the score of document `i` is the sum
over the query terms present in it of `idf * norm`, with
`idf = ln(1 + (N - df + 0.5)/(df + 0.5))` and
`norm = tf*(k1+1) / (tf + k1*(1 - b + b*(docLen/avgDocLen)))`,
`k1 = 1.5`, `b = 0.75`. -/
def bm25SpecScore (log : ℚ → ℚ) (query : String) (texts : List String)
    (i : Nat) : ℚ :=
  let queryTerms := tokenize query
  let docTokens := texts.map tokenize
  let toks := docTokens.getD i []
  let N : ℚ := texts.length
  let avgDocLen : ℚ := ((docTokens.map List.length).sum : ℚ) / (texts.length : ℚ)
  (queryTerms.map (fun term =>
    let tf : ℚ := termFreq toks term
    if tf = 0 then 0
    else
      let df : ℚ := docFreq docTokens term
      let idf := log (1 + (N - df + 1/2) / (df + 1/2))
      let docLen : ℚ := toks.length
      let norm := tf * (3/2 + 1) / (tf + 3/2 * (1 - 3/4 + 3/4 * (docLen / avgDocLen)))
      idf * norm)).sum

/-- A two-vector cache used to exhibit the order dependence of
`ListVectors` (two iteration orders of the same map). -/
def vecA : Vector := ⟨"a", [1], "", [], 0, 0⟩

/-- Second vector of the `ListVectors` order-dependence example. -/
def vecB : Vector := ⟨"b", [1], "", [], 0, 0⟩

/-- A vector with one metadata pair, used to exhibit the index mutation
left behind by a failed `UpdateVector` transaction. -/
def vecM : Vector := ⟨"a", [1], "", [("k", "v")], 0, 0⟩

/-- The store holding exactly `vecM`, as produced by a successful insert
into the empty store. -/
def sM : StoreState := (insertVector true 0 vecM ⟨[], []⟩).2

/-- Concrete vector for witness instantiations. -/
def vecW : Vector := ⟨"w1", [1, 2], "hello world", [("cat", "sci")], 0, 0⟩

/-- Concrete plain-search request for witness instantiations. -/
def reqW : SearchRequest := ⟨[1], 0, [], 0, 0⟩

/-- Concrete hybrid-search request for witness instantiations. -/
def reqHW : HybridSearchRequest := ⟨"q", [1], 1, 0, 0, 5, 1⟩

/-- The store holding exactly `vecW` at time 7, for the timestamp
witness. -/
def sW1 : StoreState := (insertVector true 7 vecW ⟨[], []⟩).2

theorem alookup_aset {β : Type} (l : List (String × β)) (k k' : String) (b : β) :
    alookup (aset l k b) k' = if k = k' then some b else alookup l k' := by
  induction l with
  | nil => by_cases h : k = k' <;> simp [aset, alookup, h]
  | cons p rest ih =>
    obtain ⟨pk, pv⟩ := p
    by_cases h1 : pk = k
    · subst h1
      by_cases h2 : pk = k'
      · subst h2; simp [aset, alookup]
      · simp [aset, alookup, h2, if_neg h2]
    · by_cases h2 : pk = k'
      · subst h2
        have hkk : ¬ k = pk := fun h => h1 h.symm
        simp [aset, alookup, h1, hkk, if_neg hkk]
      · simp [aset, alookup, h1, h2, ih]

theorem alookup_aremove {β : Type} (l : List (String × β)) (k k' : String) :
    alookup (aremove l k) k' = if k = k' then none else alookup l k' := by
  induction l with
  | nil => by_cases h : k = k' <;> simp [aremove, alookup, h]
  | cons p rest ih =>
    obtain ⟨pk, pv⟩ := p
    by_cases h1 : pk = k
    · subst h1
      by_cases h2 : pk = k'
      · subst h2; simp [aremove, alookup, ih]
      · simp [aremove, alookup, h2, ih]
    · by_cases h2 : pk = k'
      · subst h2
        have hkk : ¬ k = pk := fun h => h1 h.symm
        simp [aremove, alookup, h1, hkk, if_neg hkk]
      · simp [aremove, alookup, h1, h2, ih]

theorem mem_of_alookup_eq_some {β : Type} {l : List (String × β)} {k : String}
    {b : β} (h : alookup l k = some b) : (k, b) ∈ l := by
  induction l with
  | nil => simp [alookup] at h
  | cons p rest ih =>
    obtain ⟨pk, pv⟩ := p
    by_cases h1 : pk = k
    · subst h1
      simp [alookup] at h
      simp [h]
    · simp [alookup, h1] at h
      exact List.mem_cons_of_mem _ (ih h)

theorem alookup_eq_some_of_mem {β : Type} {l : List (String × β)}
    {k : String} {b : β} (hnd : (l.map (·.1)).Nodup) (h : (k, b) ∈ l) :
    alookup l k = some b := by
  induction l with
  | nil => simp at h
  | cons p rest ih =>
    obtain ⟨pk, pv⟩ := p
    rw [List.map_cons, List.nodup_cons] at hnd
    rcases List.mem_cons.mp h with h | h
    · rw [Prod.mk.injEq] at h
      simp [alookup, h.1, h.2]
    · have hk : ¬ pk = k := by
        intro he
        subst he
        exact hnd.1 (List.mem_map_of_mem (·.1) h)
      simp only [alookup, if_neg hk]
      exact ih hnd.2 h

theorem alookup_eq_none_iff {β : Type} (l : List (String × β)) (k : String) :
    alookup l k = none ↔ k ∉ l.map (·.1) := by
  induction l with
  | nil => simp [alookup]
  | cons p rest ih =>
    obtain ⟨pk, pv⟩ := p
    by_cases h1 : pk = k
    · subst h1; simp [alookup]
    · have h2 : ¬ k = pk := fun he => h1 he.symm
      simp [alookup, h1, h2, ih]

theorem aset_of_not_mem {β : Type} {l : List (String × β)} {k : String}
    (b : β) (h : alookup l k = none) : aset l k b = l ++ [(k, b)] := by
  induction l with
  | nil => simp [aset]
  | cons p rest ih =>
    obtain ⟨pk, pv⟩ := p
    by_cases h1 : pk = k
    · subst h1; simp [alookup] at h
    · simp [alookup, h1] at h
      simp [aset, h1, ih h]

theorem mem_aset {β : Type} {l : List (String × β)} {k : String} {b : β}
    {p : String × β} (h : p ∈ aset l k b) : p ∈ l ∨ p = (k, b) := by
  induction l with
  | nil => simpa [aset] using h
  | cons q rest ih =>
    obtain ⟨qk, qv⟩ := q
    by_cases h1 : qk = k
    · subst h1
      simp [aset] at h
      rcases h with h | h
      · right; simp [h]
      · left; simp [h]
    · simp [aset, h1] at h
      rcases h with h | h
      · left; simp [h]
      · rcases ih h with h' | h'
        · left; simp [h']
        · right; exact h'

theorem mem_aset_self {β : Type} (l : List (String × β)) (k : String) (b : β) :
    (k, b) ∈ aset l k b := by
  induction l with
  | nil => simp [aset]
  | cons q rest ih =>
    obtain ⟨qk, qv⟩ := q
    by_cases h1 : qk = k
    · subst h1; simp [aset]
    · simp [aset, h1, ih]

theorem keys_aset_nodup {β : Type} {l : List (String × β)} (k : String) (b : β)
    (h : (l.map (·.1)).Nodup) : ((aset l k b).map (·.1)).Nodup := by
  induction l with
  | nil => simp [aset]
  | cons q rest ih =>
    obtain ⟨qk, qv⟩ := q
    rw [List.map_cons, List.nodup_cons] at h
    by_cases h1 : qk = k
    · subst h1
      have he : aset ((qk, qv) :: rest) qk b = (qk, b) :: rest := by simp [aset]
      rw [he, List.map_cons, List.nodup_cons]
      exact h
    · simp only [aset, if_neg h1, List.map_cons, List.nodup_cons]
      refine ⟨?_, ih h.2⟩
      intro hm
      rcases List.mem_map.mp hm with ⟨p, hp, hpe⟩
      rcases mem_aset hp with hp' | hp'
      · exact h.1 (hpe ▸ List.mem_map_of_mem (·.1) hp')
      · rw [hp'] at hpe
        exact h1 hpe.symm

theorem aremove_sublist {β : Type} (l : List (String × β)) (k : String) :
    (aremove l k).Sublist l := by
  induction l with
  | nil => simp [aremove]
  | cons q rest ih =>
    obtain ⟨qk, qv⟩ := q
    by_cases h1 : qk = k
    · subst h1
      have he : aremove ((qk, qv) :: rest) qk = aremove rest qk := by simp [aremove]
      rw [he]
      exact List.Sublist.cons _ ih
    · have he : aremove ((qk, qv) :: rest) k = (qk, qv) :: aremove rest k := by
        simp [aremove, h1]
      rw [he]
      exact List.Sublist.cons₂ _ ih

theorem mem_aremove_iff {β : Type} (l : List (String × β)) (k : String)
    (p : String × β) : p ∈ aremove l k ↔ p ∈ l ∧ p.1 ≠ k := by
  induction l with
  | nil => simp [aremove]
  | cons q rest ih =>
    obtain ⟨qk, qv⟩ := q
    by_cases h1 : qk = k
    · subst h1
      have he : aremove ((qk, qv) :: rest) qk = aremove rest qk := by simp [aremove]
      rw [he, ih]
      simp only [List.mem_cons]
      constructor
      · rintro ⟨h2, h3⟩
        exact ⟨Or.inr h2, h3⟩
      · rintro ⟨h2 | h2, h3⟩
        · rw [h2] at h3
          exact absurd rfl h3
        · exact ⟨h2, h3⟩
    · have he : aremove ((qk, qv) :: rest) k = (qk, qv) :: aremove rest k := by
        simp [aremove, h1]
      rw [he]
      simp only [List.mem_cons, ih]
      constructor
      · rintro (h | ⟨h2, h3⟩)
        · refine ⟨Or.inl h, ?_⟩
          rw [h]
          exact fun he => h1 he
        · exact ⟨Or.inr h2, h3⟩
      · rintro ⟨h | h, h3⟩
        · exact Or.inl h
        · exact Or.inr ⟨h, h3⟩

theorem keys_aremove_nodup {β : Type} {l : List (String × β)} (k : String)
    (h : (l.map (·.1)).Nodup) : ((aremove l k).map (·.1)).Nodup :=
  h.sublist ((aremove_sublist l k).map _)

theorem mem_insId_iff (ids : List String) (id x : String) :
    x ∈ insId ids id ↔ x ∈ ids ∨ x = id := by
  unfold insId
  by_cases h : id ∈ ids
  · rw [if_pos h]
    constructor
    · exact Or.inl
    · rintro (hx | hx)
      · exact hx
      · rw [hx]; exact h
  · rw [if_neg h]
    simp

theorem insId_nodup {ids : List String} (h : ids.Nodup) (id : String) :
    (insId ids id).Nodup := by
  unfold insId
  by_cases hm : id ∈ ids
  · rw [if_pos hm]; exact h
  · rw [if_neg hm]
    simp [List.nodup_append, h, hm]

theorem insId_ne_nil (ids : List String) (id : String) : insId ids id ≠ [] := by
  unfold insId
  by_cases hm : id ∈ ids
  · rw [if_pos hm]
    intro he
    rw [he] at hm
    simp at hm
  · rw [if_neg hm]
    simp

theorem idsOf_aset (idx : Index) (k k' v' : String)
    (vm : List (String × List String)) :
    idsOf (aset idx k vm) k' v' =
      if k = k' then (alookup vm v').getD [] else idsOf idx k' v' := by
  unfold idsOf
  rw [alookup_aset]
  by_cases h : k = k' <;> simp [h]

theorem idsOf_addPair (idx : Index) (k v id k' v' : String) :
    idsOf (addPair idx k v id) k' v' =
      if k = k' ∧ v = v' then insId (idsOf idx k' v') id
      else idsOf idx k' v' := by
  unfold addPair
  rw [idsOf_aset]
  by_cases h1 : k = k'
  · subst h1
    rw [alookup_aset]
    by_cases h2 : v = v'
    · subst h2
      simp [idsOf]
    · simp [h2, idsOf]
  · simp [h1]

theorem removePair_none (idx : Index) (k v id : String)
    (hk : alookup idx k = none) : removePair idx k v id = idx := by
  unfold removePair
  rw [hk]

theorem removePair_val_none (idx : Index) (k v id : String)
    (valueMap : List (String × List String))
    (hk : alookup idx k = some valueMap) (hv : alookup valueMap v = none) :
    removePair idx k v id = idx := by
  unfold removePair
  simp only [hk, hv]

theorem removePair_prune (idx : Index) (k v id : String)
    (valueMap : List (String × List String)) (idSet : List String)
    (hk : alookup idx k = some valueMap) (hv : alookup valueMap v = some idSet)
    (hemp : idSet.filter (· ≠ id) = []) :
    removePair idx k v id = aset idx k (aremove valueMap v) := by
  unfold removePair
  simp only [hk, hv, hemp, if_pos]

theorem removePair_keep (idx : Index) (k v id : String)
    (valueMap : List (String × List String)) (idSet : List String)
    (hk : alookup idx k = some valueMap) (hv : alookup valueMap v = some idSet)
    (hemp : ¬ idSet.filter (· ≠ id) = []) :
    removePair idx k v id =
      aset idx k (aset valueMap v (idSet.filter (· ≠ id))) := by
  unfold removePair
  simp only [hk, hv, hemp, if_neg, if_false]

theorem idsOf_removePair (idx : Index) (k v id k' v' : String) :
    idsOf (removePair idx k v id) k' v' =
      if k = k' ∧ v = v' then (idsOf idx k' v').filter (· ≠ id)
      else idsOf idx k' v' := by
  cases hk : alookup idx k with
  | none =>
    rw [removePair_none idx k v id hk]
    by_cases h : k = k' ∧ v = v'
    · obtain ⟨h1, h2⟩ := h
      subst h1; subst h2
      have hz : idsOf idx k v = [] := by
        unfold idsOf; rw [hk]; simp [alookup]
      simp [hz]
    · simp [h]
  | some valueMap =>
    cases hv : alookup valueMap v with
    | none =>
      rw [removePair_val_none idx k v id valueMap hk hv]
      by_cases h : k = k' ∧ v = v'
      · obtain ⟨h1, h2⟩ := h
        subst h1; subst h2
        have hz : idsOf idx k v = [] := by
          unfold idsOf; rw [hk]; simp [hv]
        simp [hz]
      · simp [h]
    | some idSet =>
      have hisv : idsOf idx k v = idSet := by
        unfold idsOf; rw [hk]; simp [hv]
      by_cases hemp : idSet.filter (· ≠ id) = []
      · rw [removePair_prune idx k v id valueMap idSet hk hv hemp, idsOf_aset]
        by_cases h1 : k = k'
        · subst h1
          rw [alookup_aremove]
          by_cases h2 : v = v'
          · subst h2
            have hc : k = k ∧ v = v := ⟨rfl, rfl⟩
            rw [if_pos rfl, if_pos hc, hisv, hemp]
            simp
          · have hb : ¬ (k = k ∧ v = v') := fun hc => h2 hc.2
            rw [if_pos rfl, if_neg hb, if_neg h2]
            unfold idsOf
            rw [hk]
            simp
        · simp [h1]
      · rw [removePair_keep idx k v id valueMap idSet hk hv hemp, idsOf_aset]
        by_cases h1 : k = k'
        · subst h1
          rw [alookup_aset]
          by_cases h2 : v = v'
          · subst h2
            simp [hisv]
          · have hb : ¬ (k = k ∧ v = v') := fun hc => h2 hc.2
            rw [if_pos rfl, if_neg h2, if_neg hb]
            unfold idsOf
            rw [hk]
            simp
        · simp [h1]

theorem idsOf_foldl_addPair (id : String) (m : List (String × String))
    (k' v' : String) : ∀ (idx : Index), ((m.map (·.1)).Nodup) →
    idsOf (m.foldl (fun i kv => addPair i kv.1 kv.2 id) idx) k' v' =
      if (k', v') ∈ m then insId (idsOf idx k' v') id
      else idsOf idx k' v' := by
  induction m with
  | nil => intro idx _; simp
  | cons kv rest ih =>
    intro idx hm
    obtain ⟨k, v⟩ := kv
    rw [List.map_cons, List.nodup_cons] at hm
    rw [List.foldl_cons, ih _ hm.2, idsOf_addPair]
    by_cases hr : (k', v') ∈ rest
    · have hk : ¬ (k = k' ∧ v = v') := by
        rintro ⟨h1, _⟩
        subst h1
        exact hm.1 (List.mem_map_of_mem (·.1) hr)
      simp [hr, hk]
    · by_cases he : k = k' ∧ v = v'
      · obtain ⟨h1, h2⟩ := he
        subst h1; subst h2
        simp [hr]
      · have hne : ¬ (k', v') = (k, v) := by
          rintro h
          rw [Prod.mk.injEq] at h
          exact he ⟨h.1.symm, h.2.symm⟩
        simp [hr, he, hne]

theorem idsOf_foldl_removePair (id : String) (m : List (String × String))
    (k' v' : String) : ∀ (idx : Index), ((m.map (·.1)).Nodup) →
    idsOf (m.foldl (fun i kv => removePair i kv.1 kv.2 id) idx) k' v' =
      if (k', v') ∈ m then (idsOf idx k' v').filter (· ≠ id)
      else idsOf idx k' v' := by
  induction m with
  | nil => intro idx _; simp
  | cons kv rest ih =>
    intro idx hm
    obtain ⟨k, v⟩ := kv
    rw [List.map_cons, List.nodup_cons] at hm
    rw [List.foldl_cons, ih _ hm.2, idsOf_removePair]
    by_cases hr : (k', v') ∈ rest
    · have hk : ¬ (k = k' ∧ v = v') := by
        rintro ⟨h1, _⟩
        subst h1
        exact hm.1 (List.mem_map_of_mem (·.1) hr)
      simp [hr, hk]
    · by_cases he : k = k' ∧ v = v'
      · obtain ⟨h1, h2⟩ := he
        subst h1; subst h2
        simp [hr]
      · have hne : ¬ (k', v') = (k, v) := by
          rintro h
          rw [Prod.mk.injEq] at h
          exact he ⟨h.1.symm, h.2.symm⟩
        simp [hr, he, hne]

theorem idsOf_addToIndex (idx : Index) (v : Vector) (hv : VectorWf v)
    (k' v' : String) :
    idsOf (addToIndex idx v) k' v' =
      if (k', v') ∈ v.metadata then insId (idsOf idx k' v') v.id
      else idsOf idx k' v' :=
  idsOf_foldl_addPair v.id v.metadata k' v' idx hv

theorem idsOf_removeFromIndex (idx : Index) (v : Vector) (hv : VectorWf v)
    (k' v' : String) :
    idsOf (removeFromIndex idx v) k' v' =
      if (k', v') ∈ v.metadata then (idsOf idx k' v').filter (· ≠ v.id)
      else idsOf idx k' v' :=
  idsOf_foldl_removePair v.id v.metadata k' v' idx hv

theorem foldl_preserves {α : Type} (f : Index → α → Index) (P : Index → Prop)
    (hstep : ∀ i kv, P i → P (f i kv)) :
    ∀ (m : List α) (idx : Index), P idx → P (m.foldl f idx) := by
  intro m
  induction m with
  | nil => intro idx h; simpa using h
  | cons kv rest ih =>
    intro idx h
    rw [List.foldl_cons]
    exact ih _ (hstep idx kv h)

theorem valueMapWf_of_lookup {idx : Index} {k : String} (h : IndexWf idx) :
    (((alookup idx k).getD []).map (·.1)).Nodup ∧
    ∀ ve ∈ (alookup idx k).getD [], ve.2.Nodup := by
  cases hk : alookup idx k with
  | none => simp
  | some vm =>
    have := h.2 (k, vm) (mem_of_alookup_eq_some hk)
    simpa using this

theorem idSet_nodup_of_lookup {vm : List (String × List String)} {v : String}
    (h : ∀ ve ∈ vm, ve.2.Nodup) : ((alookup vm v).getD []).Nodup := by
  cases hv : alookup vm v with
  | none => simp
  | some ids =>
    have := h (v, ids) (mem_of_alookup_eq_some hv)
    simpa using this

theorem addPair_wf {idx : Index} (k v id : String) (h : IndexWf idx) :
    IndexWf (addPair idx k v id) := by
  obtain ⟨hvmk, hvmn⟩ := valueMapWf_of_lookup (k := k) h
  constructor
  · exact keys_aset_nodup _ _ h.1
  · intro e he
    rcases mem_aset he with he' | he'
    · exact h.2 e he'
    · rw [he']
      refine ⟨keys_aset_nodup _ _ hvmk, ?_⟩
      intro ve hve
      rcases mem_aset hve with hve' | hve'
      · exact hvmn ve hve'
      · rw [hve']
        exact insId_nodup (idSet_nodup_of_lookup hvmn) id

theorem addPair_noEmpty {idx : Index} (k v id : String) (h : NoEmptySets idx) :
    NoEmptySets (addPair idx k v id) := by
  intro e he
  rcases mem_aset he with he' | he'
  · exact h e he'
  · rw [he']
    intro ve hve
    rcases mem_aset hve with hve' | hve'
    · cases hk : alookup idx k with
      | none => rw [hk] at hve'; simp at hve'
      | some vm =>
        rw [hk] at hve'
        exact h (k, vm) (mem_of_alookup_eq_some hk) ve hve'
    · rw [hve']
      exact insId_ne_nil _ _

theorem removePair_wf {idx : Index} (k v id : String) (h : IndexWf idx) :
    IndexWf (removePair idx k v id) := by
  cases hk : alookup idx k with
  | none => rw [removePair_none idx k v id hk]; exact h
  | some vm =>
    have hvm := h.2 (k, vm) (mem_of_alookup_eq_some hk)
    cases hv : alookup vm v with
    | none => rw [removePair_val_none idx k v id vm hk hv]; exact h
    | some idSet =>
      by_cases hemp : idSet.filter (· ≠ id) = []
      · rw [removePair_prune idx k v id vm idSet hk hv hemp]
        refine ⟨keys_aset_nodup _ _ h.1, ?_⟩
        intro e he
        rcases mem_aset he with he' | he'
        · exact h.2 e he'
        · rw [he']
          refine ⟨keys_aremove_nodup _ hvm.1, ?_⟩
          intro ve hve
          exact hvm.2 ve ((mem_aremove_iff vm v ve).mp hve).1
      · rw [removePair_keep idx k v id vm idSet hk hv hemp]
        refine ⟨keys_aset_nodup _ _ h.1, ?_⟩
        intro e he
        rcases mem_aset he with he' | he'
        · exact h.2 e he'
        · rw [he']
          refine ⟨keys_aset_nodup _ _ hvm.1, ?_⟩
          intro ve hve
          rcases mem_aset hve with hve' | hve'
          · exact hvm.2 ve hve'
          · rw [hve']
            exact (hvm.2 (v, idSet) (mem_of_alookup_eq_some hv)).filter _

theorem removePair_noEmpty {idx : Index} (k v id : String)
    (h : NoEmptySets idx) : NoEmptySets (removePair idx k v id) := by
  cases hk : alookup idx k with
  | none => rw [removePair_none idx k v id hk]; exact h
  | some vm =>
    have hvm := h (k, vm) (mem_of_alookup_eq_some hk)
    cases hv : alookup vm v with
    | none => rw [removePair_val_none idx k v id vm hk hv]; exact h
    | some idSet =>
      by_cases hemp : idSet.filter (· ≠ id) = []
      · rw [removePair_prune idx k v id vm idSet hk hv hemp]
        intro e he
        rcases mem_aset he with he' | he'
        · exact h e he'
        · rw [he']
          intro ve hve
          exact hvm ve ((mem_aremove_iff vm v ve).mp hve).1
      · rw [removePair_keep idx k v id vm idSet hk hv hemp]
        intro e he
        rcases mem_aset he with he' | he'
        · exact h e he'
        · rw [he']
          intro ve hve
          rcases mem_aset hve with hve' | hve'
          · exact hvm ve hve'
          · rw [hve']
            exact hemp

theorem addToIndex_wf {idx : Index} (v : Vector) (h : IndexWf idx) :
    IndexWf (addToIndex idx v) :=
  foldl_preserves _ IndexWf (fun _ kv hi => addPair_wf kv.1 kv.2 v.id hi)
    v.metadata idx h

theorem addToIndex_noEmpty {idx : Index} (v : Vector) (h : NoEmptySets idx) :
    NoEmptySets (addToIndex idx v) :=
  foldl_preserves _ NoEmptySets (fun _ kv hi => addPair_noEmpty kv.1 kv.2 v.id hi)
    v.metadata idx h

theorem removeFromIndex_wf {idx : Index} (v : Vector) (h : IndexWf idx) :
    IndexWf (removeFromIndex idx v) :=
  foldl_preserves _ IndexWf (fun _ kv hi => removePair_wf kv.1 kv.2 v.id hi)
    v.metadata idx h

theorem removeFromIndex_noEmpty {idx : Index} (v : Vector)
    (h : NoEmptySets idx) : NoEmptySets (removeFromIndex idx v) :=
  foldl_preserves _ NoEmptySets (fun _ kv hi => removePair_noEmpty kv.1 kv.2 v.id hi)
    v.metadata idx h

theorem mem_aset_iff {β : Type} {l : List (String × β)}
    (hnd : (l.map (·.1)).Nodup) (k : String) (b : β) (p : String × β) :
    p ∈ aset l k b ↔ (p ∈ l ∧ p.1 ≠ k) ∨ p = (k, b) := by
  induction l with
  | nil => simp [aset]
  | cons q rest ih =>
    obtain ⟨qk, qv⟩ := q
    rw [List.map_cons, List.nodup_cons] at hnd
    by_cases h1 : qk = k
    · subst h1
      have he : aset ((qk, qv) :: rest) qk b = (qk, b) :: rest := by simp [aset]
      rw [he]
      simp only [List.mem_cons]
      constructor
      · rintro (h | h)
        · exact Or.inr h
        · have hne : p.1 ≠ qk := by
            intro hc
            exact hnd.1 (hc ▸ List.mem_map_of_mem (·.1) h)
          exact Or.inl ⟨Or.inr h, hne⟩
      · rintro (⟨h | h, h2⟩ | h)
        · rw [h] at h2; exact absurd rfl h2
        · exact Or.inr h
        · exact Or.inl h
    · have he : aset ((qk, qv) :: rest) k b = (qk, qv) :: aset rest k b := by
        simp [aset, h1]
      rw [he]
      simp only [List.mem_cons, ih hnd.2]
      constructor
      · rintro (h | ⟨h, h2⟩ | h)
        · refine Or.inl ⟨Or.inl h, ?_⟩
          rw [h]
          exact h1
        · exact Or.inl ⟨Or.inr h, h2⟩
        · exact Or.inr h
      · rintro (⟨h | h, h2⟩ | h)
        · exact Or.inl h
        · exact Or.inr (Or.inl ⟨h, h2⟩)
        · exact Or.inr (Or.inr h)

theorem cache_lookup_unique {l : List (String × Vector)}
    (hnd : (l.map (·.1)).Nodup) {id : String} {w : Vector}
    (hl : alookup l id = some w) {p : String × Vector} (hp : p ∈ l)
    (hpid : p.1 = id) : p.2 = w := by
  have h2 : alookup l p.1 = some p.2 :=
    alookup_eq_some_of_mem hnd (show (p.1, p.2) ∈ l by simpa using hp)
  rw [hpid, hl] at h2
  exact (Option.some.inj h2).symm

theorem insertVector_inv {pk : Bool} {now : Nat} {v : Vector}
    {s s' : StoreState} (hinv : Inv s) (hv : VectorWf v)
    (h : insertVector pk now v s = (none, s')) : Inv s' := by
  obtain ⟨⟨hknd, hkey⟩, hiwf, hfw, hbw, hne⟩ := hinv
  unfold insertVector at h
  cases hl : alookup s.vectors v.id with
  | some w => rw [hl] at h; simp at h
  | none =>
    rw [hl] at h
    cases pk with
    | false => simp at h
    | true =>
      simp only [if_pos] at h
      obtain ⟨-, rfl⟩ := Prod.mk.injEq .. ▸ h
      set v' : Vector := { v with createdAt := now, updatedAt := now } with hv'
      have hv'id : v'.id = v.id := rfl
      have hv'md : v'.metadata = v.metadata := rfl
      have hv'wf : VectorWf v' := hv
      have hvecs : aset s.vectors v'.id v' = s.vectors ++ [(v'.id, v')] :=
        aset_of_not_mem v' (hv'id ▸ hl)
      refine ⟨⟨?_, ?_⟩, addToIndex_wf v' hiwf, ?_, ?_, addToIndex_noEmpty v' hne⟩
      · rw [hvecs, List.map_append]
        rw [List.nodup_append]
        refine ⟨hknd, by simp, ?_⟩
        intro a ha hb
        simp only [List.map_cons, List.map_nil, List.mem_singleton] at hb
        rw [hb] at ha
        exact (alookup_eq_none_iff s.vectors v.id).mp hl (hv'id ▸ ha)
      · intro p hp
        rw [hvecs] at hp
        rcases List.mem_append.mp hp with hp | hp
        · exact hkey p hp
        · simp only [List.mem_singleton] at hp
          rw [hp]
          exact ⟨rfl, hv'wf⟩
      · intro p hp kv hkv
        rw [idsOf_addToIndex _ v' hv'wf]
        rw [hvecs] at hp
        rcases List.mem_append.mp hp with hp | hp
        · by_cases hc : (kv.1, kv.2) ∈ v'.metadata
          · rw [if_pos hc]
            exact (mem_insId_iff _ _ _).mpr (Or.inl (hfw p hp kv hkv))
          · rw [if_neg hc]
            exact hfw p hp kv hkv
        · simp only [List.mem_singleton] at hp
          rw [hp] at hkv ⊢
          rw [if_pos (by simpa using hkv)]
          exact (mem_insId_iff _ _ _).mpr (Or.inr rfl)
      · intro key val id hid
        rw [idsOf_addToIndex _ v' hv'wf] at hid
        by_cases hc : (key, val) ∈ v'.metadata
        · rw [if_pos hc] at hid
          rcases (mem_insId_iff _ _ _).mp hid with hid | hid
          · obtain ⟨p, hp, hpid, hpkv⟩ := hbw key val id hid
            exact ⟨p, by rw [hvecs]; exact List.mem_append.mpr (Or.inl hp), hpid, hpkv⟩
          · refine ⟨(v'.id, v'), ?_, ?_, ?_⟩
            · rw [hvecs]
              exact List.mem_append.mpr (Or.inr (by simp))
            · rw [hid]
            · exact hv'md ▸ hc
        · rw [if_neg hc] at hid
          obtain ⟨p, hp, hpid, hpkv⟩ := hbw key val id hid
          exact ⟨p, by rw [hvecs]; exact List.mem_append.mpr (Or.inl hp), hpid, hpkv⟩

theorem deleteVector_inv {pk : Bool} {id : String} {s s' : StoreState}
    (hinv : Inv s) (h : deleteVector pk id s = (none, s')) : Inv s' := by
  obtain ⟨⟨hknd, hkey⟩, hiwf, hfw, hbw, hne⟩ := hinv
  unfold deleteVector at h
  cases hl : alookup s.vectors id with
  | none => rw [hl] at h; simp at h
  | some vec =>
    rw [hl] at h
    cases pk with
    | false => simp at h
    | true =>
      simp only [if_pos] at h
      obtain ⟨-, rfl⟩ := Prod.mk.injEq .. ▸ h
      have hvec := hkey (id, vec) (mem_of_alookup_eq_some hl)
      have hvid : vec.id = id := hvec.1.symm
      have hvwf : VectorWf vec := hvec.2
      refine ⟨⟨?_, ?_⟩, removeFromIndex_wf vec hiwf, ?_, ?_,
        removeFromIndex_noEmpty vec hne⟩
      · exact hknd.sublist ((aremove_sublist s.vectors id).map _)
      · intro p hp
        exact hkey p ((mem_aremove_iff _ _ _).mp hp).1
      · intro p hp kv hkv
        obtain ⟨hp1, hp2⟩ := (mem_aremove_iff _ _ _).mp hp
        rw [idsOf_removeFromIndex _ vec hvwf]
        by_cases hc : (kv.1, kv.2) ∈ vec.metadata
        · rw [if_pos hc, List.mem_filter]
          refine ⟨hfw p hp1 kv hkv, ?_⟩
          simp only [decide_eq_true_eq]
          rw [hvid, ← (hkey p hp1).1]
          exact hp2
        · rw [if_neg hc]
          exact hfw p hp1 kv hkv
      · intro key val id' hid
        rw [idsOf_removeFromIndex _ vec hvwf] at hid
        by_cases hc : (key, val) ∈ vec.metadata
        · rw [if_pos hc, List.mem_filter] at hid
          obtain ⟨hid1, hid2⟩ := hid
          simp only [decide_eq_true_eq] at hid2
          obtain ⟨p, hp, hpid, hpkv⟩ := hbw key val id' hid1
          refine ⟨p, (mem_aremove_iff _ _ _).mpr ⟨hp, ?_⟩, hpid, hpkv⟩
          rw [(hkey p hp).1, hpid, ← hvid]
          exact hid2
        · rw [if_neg hc] at hid
          obtain ⟨p, hp, hpid, hpkv⟩ := hbw key val id' hid
          refine ⟨p, (mem_aremove_iff _ _ _).mpr ⟨hp, ?_⟩, hpid, hpkv⟩
          intro hc2
          have hpv : p.2 = vec := cache_lookup_unique hknd hl hp hc2
          rw [hpv] at hpkv
          exact hc hpkv

theorem updateVector_inv {pk : Bool} {now : Nat} {id : String} {v : Vector}
    {s s' : StoreState} (hinv : Inv s) (hv : VectorWf v)
    (h : updateVector pk now id v s = (none, s')) : Inv s' := by
  obtain ⟨⟨hknd, hkey⟩, hiwf, hfw, hbw, hne⟩ := hinv
  unfold updateVector at h
  cases hl : alookup s.vectors id with
  | none => rw [hl] at h; simp at h
  | some old =>
    rw [hl] at h
    cases pk with
    | false => simp at h
    | true =>
      simp only [if_pos] at h
      obtain ⟨-, rfl⟩ := Prod.mk.injEq .. ▸ h
      set v' : Vector :=
        { v with id := id, createdAt := old.createdAt, updatedAt := now } with hv'def
      have hov := hkey (id, old) (mem_of_alookup_eq_some hl)
      have hoid : old.id = id := hov.1.symm
      have howf : VectorWf old := hov.2
      have hv'wf : VectorWf v' := hv
      have hidseq : ∀ key val,
          idsOf (addToIndex (removeFromIndex s.index old) v') key val =
          if (key, val) ∈ v'.metadata
          then insId (if (key, val) ∈ old.metadata
            then (idsOf s.index key val).filter (· ≠ old.id)
            else idsOf s.index key val) v'.id
          else (if (key, val) ∈ old.metadata
            then (idsOf s.index key val).filter (· ≠ old.id)
            else idsOf s.index key val) := by
        intro key val
        rw [idsOf_addToIndex _ v' hv'wf, idsOf_removeFromIndex _ old howf]
      have hmid : ∀ key val id', id' ∈ (if (key, val) ∈ old.metadata
            then (idsOf s.index key val).filter (· ≠ old.id)
            else idsOf s.index key val) →
          ∃ p, p ∈ s.vectors ∧ p.1 ≠ id ∧ p.2.id = id' ∧
            (key, val) ∈ p.2.metadata := by
        intro key val id' hid
        by_cases hc : (key, val) ∈ old.metadata
        · rw [if_pos hc, List.mem_filter] at hid
          obtain ⟨hid1, hid2⟩ := hid
          simp only [decide_eq_true_eq] at hid2
          obtain ⟨p, hp, hpid, hpkv⟩ := hbw key val id' hid1
          refine ⟨p, hp, ?_, hpid, hpkv⟩
          rw [(hkey p hp).1, hpid, ← hoid]
          exact hid2
        · rw [if_neg hc] at hid
          obtain ⟨p, hp, hpid, hpkv⟩ := hbw key val id' hid
          refine ⟨p, hp, ?_, hpid, hpkv⟩
          intro hc2
          have hpv : p.2 = old := cache_lookup_unique hknd hl hp hc2
          rw [hpv] at hpkv
          exact hc hpkv
      refine ⟨⟨keys_aset_nodup _ _ hknd, ?_⟩,
        addToIndex_wf v' (removeFromIndex_wf old hiwf), ?_, ?_,
        addToIndex_noEmpty v' (removeFromIndex_noEmpty old hne)⟩
      · intro p hp
        rcases (mem_aset_iff hknd id v' p).mp hp with ⟨hp1, _⟩ | hp1
        · exact hkey p hp1
        · rw [hp1]
          exact ⟨rfl, hv'wf⟩
      · intro p hp kv hkv
        rw [hidseq kv.1 kv.2]
        rcases (mem_aset_iff hknd id v' p).mp hp with ⟨hp1, hp2⟩ | hp1
        · have hmidmem : p.2.id ∈ (if (kv.1, kv.2) ∈ old.metadata
              then (idsOf s.index kv.1 kv.2).filter (· ≠ old.id)
              else idsOf s.index kv.1 kv.2) := by
            by_cases hc : (kv.1, kv.2) ∈ old.metadata
            · rw [if_pos hc, List.mem_filter]
              refine ⟨hfw p hp1 kv hkv, ?_⟩
              simp only [decide_eq_true_eq]
              rw [← (hkey p hp1).1, hoid]
              exact hp2
            · rw [if_neg hc]
              exact hfw p hp1 kv hkv
          by_cases hc2 : (kv.1, kv.2) ∈ v'.metadata
          · rw [if_pos hc2]
            exact (mem_insId_iff _ _ _).mpr (Or.inl hmidmem)
          · rw [if_neg hc2]
            exact hmidmem
        · rw [hp1] at hkv ⊢
          rw [if_pos (by simpa using hkv)]
          exact (mem_insId_iff _ _ _).mpr (Or.inr rfl)
      · intro key val id' hid
        rw [hidseq key val] at hid
        by_cases hc : (key, val) ∈ v'.metadata
        · rw [if_pos hc] at hid
          rcases (mem_insId_iff _ _ _).mp hid with hid | hid
          · obtain ⟨p, hp, hpne, hpid, hpkv⟩ := hmid key val id' hid
            exact ⟨p, (mem_aset_iff hknd id v' p).mpr (Or.inl ⟨hp, hpne⟩),
              hpid, hpkv⟩
          · refine ⟨(id, v'), (mem_aset_iff hknd id v' _).mpr (Or.inr rfl),
              hid.symm, hc⟩
        · rw [if_neg hc] at hid
          obtain ⟨p, hp, hpne, hpid, hpkv⟩ := hmid key val id' hid
          exact ⟨p, (mem_aset_iff hknd id v' p).mpr (Or.inl ⟨hp, hpne⟩),
            hpid, hpkv⟩

theorem inv_empty : Inv ⟨[], []⟩ := by
  refine ⟨⟨List.nodup_nil, ?_⟩, ⟨List.nodup_nil, ?_⟩, ?_, ?_, ?_⟩
  · intro p hp; simp at hp
  · intro e he; simp at he
  · intro p hp; simp at hp
  · intro key val id hid
    simp [idsOf, alookup] at hid
  · intro e he; simp at he

/-- Claim C2: after every completed mutation on an invariant-satisfying
store, the inverted index exactly mirrors the cached metadata (every
cached pair is indexed under the vector's id, every indexed id belongs
to a cached vector still carrying the pair, no empty id-set is
retained), so a (key, value) pair carried by no cached vector - in
particular after insert/delete cycles - has no ids left in the index. -/
theorem index_mirrors_cache (pk : Bool) (op : MutOp) (s s' : StoreState)
    (hinv : Inv s) (hop : OpWf op) (h : applyOp pk op s = (none, s')) :
    Inv s' ∧ ∀ key val,
      (∀ p ∈ s'.vectors, (key, val) ∉ p.2.metadata) →
      idsOf s'.index key val = [] := by
  have hinv' : Inv s' := by
    cases op with
    | insert now v => exact insertVector_inv hinv hop h
    | update now id v => exact updateVector_inv hinv hop h
    | delete id => exact deleteVector_inv hinv h
  refine ⟨hinv', ?_⟩
  intro key val hnone
  by_contra hx
  obtain ⟨id, hid⟩ := List.exists_mem_of_ne_nil _ hx
  obtain ⟨p, hp, hpid, hpkv⟩ := hinv'.2.2.2.1 key val id hid
  exact hnone p hp hpkv

theorem index_mirrors_cache_witness :
    Inv ((applyOp true (.insert 3 vecW) ⟨[], []⟩).2) ∧
    (∀ key val,
      (∀ p ∈ ((applyOp true (.insert 3 vecW) ⟨[], []⟩).2).vectors,
        (key, val) ∉ p.2.metadata) →
      idsOf ((applyOp true (.insert 3 vecW) ⟨[], []⟩).2).index key val = []) :=
  index_mirrors_cache true (.insert 3 vecW) ⟨[], []⟩ _ inv_empty
    (by simp [OpWf, VectorWf, vecW]) (by decide)

/-- Claim C1 (code bug, failing input): `UpdateVector` removes the old
vector's metadata entries from the inverted index before running the
durable transaction, so when the transaction fails it returns
InternalError with the cache unchanged but the index already mutated,
against the spec's no-partial-mutation policy. -/
theorem updateVector_partial_index_mutation :
    (updateVector false 1 "a" vecM sM).1 = some .internalError ∧
    (updateVector false 1 "a" vecM sM).2.vectors = sM.vectors ∧
    (updateVector false 1 "a" vecM sM).2.index ≠ sM.index := by decide

/-- Claim C5: `cosineSimilarity` errors exactly when the lengths differ
or one of the sums of squares (the squared magnitudes) is zero, and
otherwise returns the dot product divided by the product of the
magnitudes `√magA · √magB`. -/
theorem cosineSimilarity_spec (sqrt : ℚ → ℚ) (a b : List ℚ) :
    ((∃ e, cosineSimilarity sqrt a b = .error e) ↔
      a.length ≠ b.length ∨ sumSquares a = 0 ∨ sumSquares b = 0) ∧
    (a.length = b.length → sumSquares a ≠ 0 → sumSquares b ≠ 0 →
      cosineSimilarity sqrt a b =
        .ok (dotProduct a b / (sqrt (sumSquares a) * sqrt (sumSquares b)))) := by
  unfold cosineSimilarity
  by_cases h1 : a.length = b.length
  · by_cases h2 : sumSquares a = 0 ∨ sumSquares b = 0
    · constructor
      · simp [h1, h2]
      · intro _ ha hb
        rcases h2 with h2 | h2
        · exact absurd h2 ha
        · exact absurd h2 hb
    · constructor
      · simp [h1, h2]
      · intro _ _ _
        simp [h1, h2]
  · constructor
    · simp [h1]
    · intro hc
      exact absurd hc h1

theorem cosineSimilarity_spec_witness :
    cosineSimilarity (fun q => q) [1, 2] [2, 1] =
      .ok (dotProduct [1, 2] [2, 1] /
        ((fun q : ℚ => q) (sumSquares [1, 2]) *
          (fun q : ℚ => q) (sumSquares [2, 1]))) :=
  (cosineSimilarity_spec (fun q => q) [1, 2] [2, 1]).2 rfl
    (by norm_num [sumSquares]) (by norm_num [sumSquares])

/-- Claim C8 (code bug, failing input): `ListVectors` windows the cache
in Go map iteration order without imposing a total order, so two
iteration orders of the same two-vector cache give different results;
determinism across calls on the same state does not hold. -/
theorem listVectors_order_dependent :
    List.Perm [vecA, vecB] [vecB, vecA] ∧
    listVectors [vecA, vecB] 10 0 ≠ listVectors [vecB, vecA] 10 0 := by
  constructor
  · exact List.Perm.swap _ _ _
  · decide

/-- Claim C9: a successful insert stamps both timestamps with the call
time (so `CreatedAt = UpdatedAt`), and a successful update carries the
old `CreatedAt` forward unchanged while setting `UpdatedAt` to the
update's (later) call time. -/
theorem timestamp_semantics (pk : Bool) (now now' : Nat) (v w : Vector)
    (s : StoreState) :
    (∀ s', insertVector pk now v s = (none, s') →
      ∃ stored, alookup s'.vectors v.id = some stored ∧
        stored.createdAt = now ∧ stored.updatedAt = now) ∧
    (∀ id old s', alookup s.vectors id = some old →
      updateVector pk now' id w s = (none, s') →
      ∃ stored, alookup s'.vectors id = some stored ∧
        stored.createdAt = old.createdAt ∧ stored.updatedAt = now' ∧
        (old.updatedAt < now' → old.updatedAt < stored.updatedAt)) := by
  constructor
  · intro s' h
    unfold insertVector at h
    cases hl : alookup s.vectors v.id with
    | some _ => rw [hl] at h; simp at h
    | none =>
      rw [hl] at h
      cases pk with
      | false => simp at h
      | true =>
        simp only [if_pos] at h
        obtain ⟨-, rfl⟩ := Prod.mk.injEq .. ▸ h
        refine ⟨{ v with createdAt := now, updatedAt := now }, ?_, rfl, rfl⟩
        rw [alookup_aset]
        simp
  · intro id old s' hl h
    unfold updateVector at h
    rw [hl] at h
    cases pk with
    | false => simp at h
    | true =>
      simp only [if_pos] at h
      obtain ⟨-, rfl⟩ := Prod.mk.injEq .. ▸ h
      refine ⟨{ w with id := id, createdAt := old.createdAt, updatedAt := now' },
        ?_, rfl, rfl, fun hlt => hlt⟩
      rw [alookup_aset]
      simp

theorem interFold_key_none {idx : Index} {key : String} (val : String)
    (rest : List (String × String)) (acc : Option (List String))
    (hk : alookup idx key = none) :
    interFold idx ((key, val) :: rest) acc = [] := by
  unfold interFold
  rw [hk]

theorem interFold_val_none {idx : Index} {key val : String}
    {vm : List (String × List String)} (rest : List (String × String))
    (acc : Option (List String)) (hk : alookup idx key = some vm)
    (hv : alookup vm val = none) :
    interFold idx ((key, val) :: rest) acc = [] := by
  unfold interFold
  simp only [hk, hv]

theorem interFold_step_some {idx : Index} {key val : String}
    {vm : List (String × List String)} {idSet : List String}
    (rest : List (String × String)) (acc : List String)
    (hk : alookup idx key = some vm) (hv : alookup vm val = some idSet) :
    interFold idx ((key, val) :: rest) (some acc) =
      if acc.filter (· ∈ idSet) = [] then []
      else interFold idx rest (some (acc.filter (· ∈ idSet))) := by
  conv_lhs => unfold interFold
  simp only [hk, hv]

theorem interFold_step_none {idx : Index} {key val : String}
    {vm : List (String × List String)} {idSet : List String}
    (rest : List (String × String))
    (hk : alookup idx key = some vm) (hv : alookup vm val = some idSet) :
    interFold idx ((key, val) :: rest) none =
      if idSet = [] then [] else interFold idx rest (some idSet) := by
  conv_lhs => unfold interFold
  simp only [hk, hv]

theorem mem_interFold_some (idx : Index) (filters : List (String × String)) :
    ∀ (acc : List String) (id : String),
      id ∈ interFold idx filters (some acc) ↔
        id ∈ acc ∧ ∀ kv ∈ filters, id ∈ idsOf idx kv.1 kv.2 := by
  induction filters with
  | nil => intro acc id; simp [interFold]
  | cons kv rest ih =>
    intro acc id
    obtain ⟨key, val⟩ := kv
    cases hk : alookup idx key with
    | none =>
      have hz : idsOf idx key val = [] := by
        unfold idsOf; rw [hk]; simp [alookup]
      rw [interFold_key_none val rest (some acc) hk]
      simp [hz]
    | some vm =>
      cases hv : alookup vm val with
      | none =>
        have hz : idsOf idx key val = [] := by
          unfold idsOf; rw [hk]; simp [hv]
        rw [interFold_val_none rest (some acc) hk hv]
        simp [hz]
      | some idSet =>
        have hz : idsOf idx key val = idSet := by
          unfold idsOf; rw [hk]; simp [hv]
        rw [interFold_step_some rest acc hk hv]
        by_cases hemp : acc.filter (· ∈ idSet) = []
        · rw [if_pos hemp]
          simp only [List.not_mem_nil, false_iff]
          rintro ⟨ha, hall⟩
          have hmem : id ∈ acc.filter (· ∈ idSet) := by
            rw [List.mem_filter]
            refine ⟨ha, ?_⟩
            simp only [decide_eq_true_eq]
            rw [← hz]
            exact hall (key, val) (List.mem_cons_self _ _)
          rw [hemp] at hmem
          simp at hmem
        · rw [if_neg hemp, ih]
          rw [List.mem_filter]
          simp only [decide_eq_true_eq, List.forall_mem_cons, hz]
          tauto

theorem mem_interFold_none (idx : Index) (key val : String)
    (rest : List (String × String)) (id : String) :
    id ∈ interFold idx ((key, val) :: rest) none ↔
      ∀ kv ∈ (key, val) :: rest, id ∈ idsOf idx kv.1 kv.2 := by
  cases hk : alookup idx key with
  | none =>
    have hz : idsOf idx key val = [] := by
      unfold idsOf; rw [hk]; simp [alookup]
    rw [interFold_key_none val rest none hk]
    simp [hz]
  | some vm =>
    cases hv : alookup vm val with
    | none =>
      have hz : idsOf idx key val = [] := by
        unfold idsOf; rw [hk]; simp [hv]
      rw [interFold_val_none rest none hk hv]
      simp [hz]
    | some idSet =>
      have hz : idsOf idx key val = idSet := by
        unfold idsOf; rw [hk]; simp [hv]
      rw [interFold_step_none rest hk hv]
      by_cases hemp : idSet = []
      · rw [if_pos hemp]
        simp only [List.not_mem_nil, false_iff]
        intro hall
        have hmem := hall (key, val) (List.mem_cons_self _ _)
        rw [hz, hemp] at hmem
        simp at hmem
      · rw [if_neg hemp, mem_interFold_some]
        simp only [List.forall_mem_cons, hz]

/-- Claim C4: with no filters, `filterVectors` returns every cached
vector; with filters, a vector is returned exactly when it is cached and
its id lies in every per-filter id-set of the inverted index (so an
absent key or value yields an empty result, and multiple filters are
intersected, never unioned). -/
theorem filterVectors_spec (s : StoreState) (filters : List (String × String))
    (hwf : CacheWf s.vectors) :
    (filters = [] → filterVectors s filters = s.vectors.map (·.2)) ∧
    (∀ v, v ∈ filterVectors s filters ↔
      v ∈ s.vectors.map (·.2) ∧
      ∀ kv ∈ filters, v.id ∈ idsOf s.index kv.1 kv.2) := by
  constructor
  · intro h
    subst h
    rfl
  · intro v
    cases filters with
    | nil => simp [filterVectors]
    | cons kv rest =>
      obtain ⟨key, val⟩ := kv
      show v ∈ (interFold s.index ((key, val) :: rest) none).filterMap
          (fun id => alookup s.vectors id) ↔ _
      rw [List.mem_filterMap]
      constructor
      · rintro ⟨id, hid, hv⟩
        have hmem : (id, v) ∈ s.vectors := mem_of_alookup_eq_some hv
        have hid_eq : id = v.id := (hwf.2 (id, v) hmem).1
        refine ⟨List.mem_map.mpr ⟨(id, v), hmem, rfl⟩, ?_⟩
        rw [← hid_eq]
        exact (mem_interFold_none s.index key val rest id).mp hid
      · rintro ⟨hv, hall⟩
        rcases List.mem_map.mp hv with ⟨p, hp, hpe⟩
        have hpid : p.1 = v.id := by rw [(hwf.2 p hp).1, hpe]
        refine ⟨v.id, (mem_interFold_none s.index key val rest v.id).mpr hall, ?_⟩
        have hlk : alookup s.vectors p.1 = some p.2 :=
          alookup_eq_some_of_mem hwf.1 (show (p.1, p.2) ∈ s.vectors by simpa using hp)
        rw [hpid, hpe] at hlk
        exact hlk

theorem filterVectors_spec_witness :
    (([] : List (String × String)) = [] →
      filterVectors ⟨[("w1", vecW)], [("cat", [("sci", ["w1"])])]⟩ [] =
        ([("w1", vecW)].map (·.2))) ∧
    (∀ v, v ∈ filterVectors ⟨[("w1", vecW)], [("cat", [("sci", ["w1"])])]⟩ [] ↔
      v ∈ [("w1", vecW)].map (·.2) ∧
      ∀ kv ∈ ([] : List (String × String)),
        v.id ∈ idsOf [("cat", [("sci", ["w1"])])] kv.1 kv.2) :=
  filterVectors_spec ⟨[("w1", vecW)], [("cat", [("sci", ["w1"])])]⟩ []
    (by unfold CacheWf VectorWf; decide)

theorem paginate_eq {α : Type} (results : List α) (page limit : Int) :
    paginate results page limit =
      (results.drop ((page - 1) * limit).toNat).take limit.toNat := by
  unfold paginate
  by_cases h : results.length ≤ ((page - 1) * limit).toNat
  · rw [if_pos h, List.drop_eq_nil_of_le h]
    simp
  · rw [if_neg h]

theorem sortByScoreDesc_sorted (results : List SearchResult) :
    (sortByScoreDesc results).Pairwise (fun x y => y.score ≤ x.score) := by
  have htrans : ∀ (a b c : SearchResult),
      (fun x y : SearchResult => decide (y.score ≤ x.score)) a b = true →
      (fun x y : SearchResult => decide (y.score ≤ x.score)) b c = true →
      (fun x y : SearchResult => decide (y.score ≤ x.score)) a c = true := by
    intro a b c hab hbc
    simp only [decide_eq_true_eq] at hab hbc ⊢
    exact le_trans hbc hab
  have htotal : ∀ (a b : SearchResult),
      ((fun x y : SearchResult => decide (y.score ≤ x.score)) a b ||
        (fun x y : SearchResult => decide (y.score ≤ x.score)) b a) = true := by
    intro a b
    simp only [Bool.or_eq_true, decide_eq_true_eq]
    exact le_total b.score a.score
  have h := List.sorted_mergeSort htrans htotal results
  exact h.imp (fun hab => by simpa using hab)

/-- Claim C3: every successful plain search builds the sorted truncated
list `searchTruncated` (non-increasing scores, at most the defaulted
`top_k` entries), reports its length as `total`, echoes the defaulted
page/limit, and returns the window `[(page-1)*limit, (page-1)*limit+limit)`
over it; a start index at or past the end gives an empty page with the
same total. -/
theorem searchVectors_pagination (sqrt : ℚ → ℚ) (s : StoreState)
    (req : SearchRequest) (resp : SearchResponse)
    (h : searchVectors sqrt s req = .ok resp) :
    (searchTruncated sqrt s req).Pairwise (fun x y => y.score ≤ x.score) ∧
    (searchTruncated sqrt s req).length ≤
      (if req.topK ≤ 0 then (10 : Int) else req.topK).toNat ∧
    resp.total = (searchTruncated sqrt s req).length ∧
    resp.page = (if req.page ≤ 0 then 1 else req.page) ∧
    resp.limit = (if req.limit ≤ 0 then 10 else req.limit) ∧
    resp.results = ((searchTruncated sqrt s req).drop
        (((if req.page ≤ 0 then (1 : Int) else req.page) - 1) *
          (if req.limit ≤ 0 then (10 : Int) else req.limit)).toNat).take
      (if req.limit ≤ 0 then (10 : Int) else req.limit).toNat ∧
    ((searchTruncated sqrt s req).length ≤
        (((if req.page ≤ 0 then (1 : Int) else req.page) - 1) *
          (if req.limit ≤ 0 then (10 : Int) else req.limit)).toNat →
      resp.results = []) := by
  have hsorted : (searchTruncated sqrt s req).Pairwise
      (fun x y => y.score ≤ x.score) := by
    unfold searchTruncated
    exact List.Pairwise.sublist (List.take_sublist _ _) (sortByScoreDesc_sorted _)
  have hlen : (searchTruncated sqrt s req).length ≤
      (if req.topK ≤ 0 then (10 : Int) else req.topK).toNat := by
    unfold searchTruncated
    rw [List.length_take]
    exact min_le_left _ _
  refine ⟨hsorted, hlen, ?_⟩
  unfold searchVectors at h
  by_cases hq : req.query = []
  · rw [if_pos hq] at h
    simp at h
  · rw [if_neg hq] at h
    by_cases hc : filterVectors s req.filter = []
    · rw [if_pos hc] at h
      have hX := Except.ok.inj h
      have hT : searchTruncated sqrt s req = [] := by
        unfold searchTruncated
        rw [hc]
        simp [scoreCandidates, sortByScoreDesc]
      rw [← hX, hT]
      refine ⟨rfl, rfl, rfl, by simp, fun _ => rfl⟩
    · rw [if_neg hc] at h
      have hX := Except.ok.inj h
      rw [← hX]
      refine ⟨rfl, rfl, rfl, ?_, ?_⟩
      · exact paginate_eq _ _ _
      · intro hle
        unfold paginate
        rw [if_pos hle]

theorem length_calculateBM25Scores (log : ℚ → ℚ) (query : String)
    (texts : List String) :
    (calculateBM25Scores log query texts).length = texts.length := by
  unfold calculateBM25Scores
  by_cases h : tokenize query = []
  · rw [if_pos h, List.length_map]
  · rw [if_neg h, List.length_map, List.length_map]

theorem length_hybridRanked (sqrt log : ℚ → ℚ) (query : String)
    (qv : List ℚ) (vw kw : ℚ) (vectors : List Vector) :
    (hybridRanked sqrt log query qv vw kw vectors).length = vectors.length := by
  unfold hybridRanked
  rw [(List.mergeSort_perm _ _).length_eq, List.length_map, List.length_zip,
    length_calculateBM25Scores, List.length_map, min_self]

theorem map_id_zip (vectors : List Vector)
    (f : Vector × ℚ → HybridSearchResult) (hf : ∀ p, (f p).id = p.1.id) :
    ∀ (rest : List ℚ), vectors.length ≤ rest.length →
      ((vectors.zip rest).map f).map (·.id) = vectors.map (·.id) := by
  induction vectors with
  | nil => intro rest _; simp
  | cons v vrest ih =>
    intro rest hlen
    cases rest with
    | nil => simp at hlen
    | cons sc srest =>
      simp only [List.zip_cons_cons, List.map_cons, hf]
      rw [ih srest (by simpa using hlen)]

theorem hybridRanked_ids_perm (sqrt log : ℚ → ℚ) (query : String)
    (qv : List ℚ) (vw kw : ℚ) (vectors : List Vector) :
    List.Perm ((hybridRanked sqrt log query qv vw kw vectors).map (·.id))
      (vectors.map (·.id)) := by
  unfold hybridRanked
  have hp := (List.mergeSort_perm
    ((vectors.zip (calculateBM25Scores log query (vectors.map (·.text)))).map
      (fun p => hybridItem sqrt qv vw kw p.1 p.2))
    (fun x y => decide (y.hybridScore ≤ x.hybridScore))).map
    (fun x : HybridSearchResult => x.id)
  refine hp.trans ?_
  rw [map_id_zip vectors (fun p => hybridItem sqrt qv vw kw p.1 p.2)
    (fun p => rfl) (calculateBM25Scores log query (vectors.map (·.text)))
    (by rw [length_calculateBM25Scores, List.length_map])]

/-- Claim C6: in a successful hybrid search the weights are replaced by
0.5/0.5 exactly when their sum is zero, and every returned item's hybrid
score is `vw * vectorScore + kw * keywordScore` for a cached vector,
where the vector score falls back to 0 (instead of failing the query)
whenever cosine similarity is unavailable for that vector. -/
theorem hybridSearch_scores (sqrt log : ℚ → ℚ) (s : StoreState)
    (req : HybridSearchRequest) (resp : HybridSearchResponse)
    (h : hybridSearch sqrt log s req = .ok resp) :
    ((req.vectorWeight + req.keywordWeight = 0 →
      (if req.vectorWeight + req.keywordWeight = 0 then (1 : ℚ)/2
        else req.vectorWeight) = 1/2 ∧
      (if req.vectorWeight + req.keywordWeight = 0 then (1 : ℚ)/2
        else req.keywordWeight) = 1/2)) ∧
    ∀ r ∈ resp.results,
      r.hybridScore =
        (if req.vectorWeight + req.keywordWeight = 0 then (1 : ℚ)/2
          else req.vectorWeight) * r.vectorScore +
        (if req.vectorWeight + req.keywordWeight = 0 then (1 : ℚ)/2
          else req.keywordWeight) * r.keywordScore ∧
      ∃ v, v ∈ s.vectors.map (·.2) ∧ r.id = v.id ∧ r.text = v.text ∧
        r.vectorScore = vectorScoreOf sqrt req.queryVector v := by
  constructor
  · intro h0
    rw [if_pos h0, if_pos h0]
    exact ⟨rfl, rfl⟩
  · intro r hr
    unfold hybridSearch at h
    by_cases hq : req.query = ""
    · rw [if_pos hq] at h
      simp at h
    · rw [if_neg hq] at h
      by_cases hv : req.queryVector = []
      · rw [if_pos hv] at h
        simp at h
      · rw [if_neg hv] at h
        by_cases hc : s.vectors.map (·.2) = []
        · rw [if_pos hc] at h
          have hX := Except.ok.inj h
          rw [← hX] at hr
          simp at hr
        · rw [if_neg hc] at h
          have hX := Except.ok.inj h
          rw [← hX] at hr
          have hr2 : r ∈ hybridRanked sqrt log req.query req.queryVector
              (if req.vectorWeight + req.keywordWeight = 0 then 1/2
                else req.vectorWeight)
              (if req.vectorWeight + req.keywordWeight = 0 then 1/2
                else req.keywordWeight)
              (s.vectors.map (·.2)) := by
            have hrp := hr
            rw [paginate_eq] at hrp
            exact (List.drop_sublist _ _).subset ((List.take_sublist _ _).subset hrp)
          unfold hybridRanked at hr2
          have hr3 := (List.mergeSort_perm _ _).subset hr2
          rcases List.mem_map.mp hr3 with ⟨p, hp, hpe⟩
          have hpv := (List.of_mem_zip hp).1
          refine ⟨?_, p.1, hpv, ?_, ?_, ?_⟩ <;> rw [← hpe] <;> rfl

theorem hybridSearch_scores_witness :
    ((reqHW.vectorWeight + reqHW.keywordWeight = 0 →
      (if reqHW.vectorWeight + reqHW.keywordWeight = 0 then (1 : ℚ)/2
        else reqHW.vectorWeight) = 1/2 ∧
      (if reqHW.vectorWeight + reqHW.keywordWeight = 0 then (1 : ℚ)/2
        else reqHW.keywordWeight) = 1/2)) ∧
    ∀ r ∈ (⟨0, 1, 5, []⟩ : HybridSearchResponse).results,
      r.hybridScore =
        (if reqHW.vectorWeight + reqHW.keywordWeight = 0 then (1 : ℚ)/2
          else reqHW.vectorWeight) * r.vectorScore +
        (if reqHW.vectorWeight + reqHW.keywordWeight = 0 then (1 : ℚ)/2
          else reqHW.keywordWeight) * r.keywordScore ∧
      ∃ v, v ∈ (⟨[], []⟩ : StoreState).vectors.map (·.2) ∧ r.id = v.id ∧
        r.text = v.text ∧
        r.vectorScore = vectorScoreOf (fun q => q) reqHW.queryVector v :=
  hybridSearch_scores (fun q => q) (fun q => q) ⟨[], []⟩ reqHW ⟨0, 1, 5, []⟩
    (by
      have h1 : ¬ (("q" : String) = "") := by decide
      norm_num [hybridSearch, reqHW, h1])

/-- Claim C10: a hybrid search that passes validation always succeeds,
its `Total` is the number of cached vectors (each cached vector,
including dimension-incompatible or text-less ones, contributes exactly
one entry to the pre-pagination ranked list, whose ids are a permutation
of the cached ids), and the empty cache gives total 0 with an empty
result and no error. -/
theorem hybridSearch_total (sqrt log : ℚ → ℚ) (s : StoreState)
    (req : HybridSearchRequest) (hq : req.query ≠ "")
    (hv : req.queryVector ≠ []) :
    ∃ resp, hybridSearch sqrt log s req = .ok resp ∧
      resp.total = s.vectors.length ∧
      List.Perm ((hybridRanked sqrt log req.query req.queryVector
          (if req.vectorWeight + req.keywordWeight = 0 then 1/2
            else req.vectorWeight)
          (if req.vectorWeight + req.keywordWeight = 0 then 1/2
            else req.keywordWeight)
          (s.vectors.map (·.2))).map (·.id))
        (s.vectors.map (fun p => p.2.id)) ∧
      (s.vectors = [] → resp.results = [] ∧ resp.total = 0) := by
  have hperm := hybridRanked_ids_perm sqrt log req.query req.queryVector
    (if req.vectorWeight + req.keywordWeight = 0 then 1/2
      else req.vectorWeight)
    (if req.vectorWeight + req.keywordWeight = 0 then 1/2
      else req.keywordWeight)
    (s.vectors.map (·.2))
  rw [List.map_map] at hperm
  unfold hybridSearch
  rw [if_neg hq, if_neg hv]
  by_cases hc : s.vectors.map (·.2) = []
  · rw [if_pos hc]
    refine ⟨_, rfl, ?_, hperm, fun _ => ⟨rfl, rfl⟩⟩
    show 0 = s.vectors.length
    rw [List.map_eq_nil_iff.mp hc]
    rfl
  · rw [if_neg hc]
    refine ⟨_, rfl, ?_, hperm, ?_⟩
    · show (hybridRanked sqrt log req.query req.queryVector _ _
          (s.vectors.map (·.2))).length = s.vectors.length
      rw [length_hybridRanked, List.length_map]
    · intro h0
      rw [h0] at hc
      simp at hc

theorem hybridSearch_total_witness :
    ∃ resp, hybridSearch (fun q => q) (fun q => q) ⟨[], []⟩ reqHW = .ok resp ∧
      resp.total = (⟨[], []⟩ : StoreState).vectors.length ∧
      List.Perm ((hybridRanked (fun q => q) (fun q => q) reqHW.query
          reqHW.queryVector
          (if reqHW.vectorWeight + reqHW.keywordWeight = 0 then 1/2
            else reqHW.vectorWeight)
          (if reqHW.vectorWeight + reqHW.keywordWeight = 0 then 1/2
            else reqHW.keywordWeight)
          ((⟨[], []⟩ : StoreState).vectors.map (·.2))).map (·.id))
        ((⟨[], []⟩ : StoreState).vectors.map (fun p => p.2.id)) ∧
      ((⟨[], []⟩ : StoreState).vectors = [] →
        resp.results = [] ∧ resp.total = 0) :=
  hybridSearch_total (fun q => q) (fun q => q) ⟨[], []⟩ reqHW
    (by decide) (by decide)

theorem searchVectors_pagination_witness :
    (⟨0, 1, 10, []⟩ : SearchResponse).total =
      (searchTruncated (fun q => q) ⟨[], []⟩ reqW).length :=
  (searchVectors_pagination (fun q => q) ⟨[], []⟩ reqW ⟨0, 1, 10, []⟩
    rfl).2.2.1

theorem timestamp_semantics_witness :
    ∃ stored,
      alookup ((updateVector true 9 "w1" vecB sW1).2).vectors "w1" =
        some stored ∧
      stored.createdAt =
        (⟨"w1", [1, 2], "hello world", [("cat", "sci")], 7, 7⟩ : Vector).createdAt ∧
      stored.updatedAt = 9 ∧
      ((⟨"w1", [1, 2], "hello world", [("cat", "sci")], 7, 7⟩ : Vector).updatedAt < 9 →
        (⟨"w1", [1, 2], "hello world", [("cat", "sci")], 7, 7⟩ : Vector).updatedAt <
          stored.updatedAt) :=
  (timestamp_semantics true 7 9 vecW vecB sW1).2 "w1"
    ⟨"w1", [1, 2], "hello world", [("cat", "sci")], 7, 7⟩ _ (by decide) (by decide)

theorem foldl_add_eq_sum {α : Type} (f : α → ℚ) :
    ∀ (l : List α) (c : ℚ),
      l.foldl (fun acc x => acc + f x) c = c + (l.map f).sum := by
  intro l
  induction l with
  | nil => intro c; simp
  | cons a rest ih =>
    intro c
    rw [List.foldl_cons, ih, List.map_cons, List.sum_cons]
    ring

theorem termFreq_pos_mem {toks : List String} {term : String}
    (h : termFreq toks term ≠ 0) : term ∈ toks := by
  unfold termFreq at h
  rw [Ne, List.length_eq_zero] at h
  obtain ⟨x, hx⟩ := List.exists_mem_of_ne_nil _ h
  obtain ⟨hx1, hx2⟩ := List.mem_filter.mp hx
  simp only [decide_eq_true_eq] at hx2
  rw [← hx2]
  exact hx1

theorem docFreq_pos {docTokens : List (List String)} {toks : List String}
    {term : String} (hmem : toks ∈ docTokens) (hterm : term ∈ toks) :
    docFreq docTokens term ≠ 0 := by
  unfold docFreq
  rw [Ne, List.length_eq_zero]
  intro h0
  have hmem2 : toks ∈ docTokens.filter (fun t => term ∈ t) := by
    rw [List.mem_filter]
    exact ⟨hmem, by simpa using hterm⟩
  rw [h0] at hmem2
  simp at hmem2

theorem bm25DocScore_eq_spec (log : ℚ → ℚ) (queryTerms : List String)
    (docTokens : List (List String)) (avgDocLen : ℚ) (toks : List String)
    (hmem : toks ∈ docTokens) :
    bm25DocScore log queryTerms docTokens avgDocLen toks =
      (queryTerms.map (fun term =>
        if (termFreq toks term : ℚ) = 0 then 0
        else
          log (1 + ((docTokens.length : ℚ) - (docFreq docTokens term : ℚ) + 1/2) /
              ((docFreq docTokens term : ℚ) + 1/2)) *
            ((termFreq toks term : ℚ) * (3/2 + 1) /
              ((termFreq toks term : ℚ) +
                3/2 * (1 - 3/4 + 3/4 * ((toks.length : ℚ) / avgDocLen)))))).sum := by
  unfold bm25DocScore
  rw [List.foldl_ext _ (fun score term => score +
      (if (termFreq toks term : ℚ) = 0 then 0
        else
          log (1 + ((docTokens.length : ℚ) - (docFreq docTokens term : ℚ) + 1/2) /
              ((docFreq docTokens term : ℚ) + 1/2)) *
            ((termFreq toks term : ℚ) * (3/2 + 1) /
              ((termFreq toks term : ℚ) +
                3/2 * (1 - 3/4 + 3/4 * ((toks.length : ℚ) / avgDocLen)))))) 0 ?_]
  · rw [foldl_add_eq_sum, zero_add]
  · intro score term _
    by_cases htf : (termFreq toks term : ℚ) = 0
    · simp [htf]
    · have hterm : term ∈ toks :=
        termFreq_pos_mem (fun hz => htf (by rw [hz]; simp))
      have hdf : ¬ (docFreq docTokens term : ℚ) = 0 := by
        rw [Nat.cast_eq_zero]
        exact docFreq_pos hmem hterm
      simp [htf, hdf]

/-- Claim C7: each document's BM25 score as computed by
`calculateBM25Scores` equals the spec formula: the sum over query terms
present in the document of `idf * norm`, with
`idf = log(1 + (N - df + 0.5)/(df + 0.5))`,
`norm = tf*(k1+1)/(tf + k1*(1 - b + b*(docLen/avgDocLen)))`, `k1 = 1.5`,
`b = 0.75`; absent terms contribute zero. -/
theorem calculateBM25Scores_spec (log : ℚ → ℚ) (query : String)
    (texts : List String) (i : Nat) (hi : i < texts.length) :
    (calculateBM25Scores log query texts).getD i 0 =
      bm25SpecScore log query texts i := by
  unfold calculateBM25Scores bm25SpecScore
  by_cases hq : tokenize query = []
  · rw [if_pos hq, hq]
    simp only [List.map_nil, List.sum_nil]
    have hlen : i < (texts.map (fun _ => (0 : ℚ))).length := by simpa using hi
    rw [List.getD_eq_getElem _ _ hlen, List.getElem_map]
  · rw [if_neg hq]
    have hlen : i < (texts.map tokenize).length := by simpa using hi
    have hlen2 : i < ((texts.map tokenize).map
        (bm25DocScore log (tokenize query) (texts.map tokenize)
          (((texts.map tokenize).map List.length).sum / (texts.length : ℚ)))).length := by
      simpa using hi
    rw [List.getD_eq_getElem _ _ hlen2, List.getElem_map]
    rw [bm25DocScore_eq_spec log (tokenize query) (texts.map tokenize) _ _
      (List.getElem_mem hlen)]
    simp only [List.length_map, List.getD_eq_getElem _ _ hlen]

theorem calculateBM25Scores_spec_witness :
    (calculateBM25Scores (fun q => q) "hello"
      ["hello world, hello", "other text"]).getD 0 0 =
      bm25SpecScore (fun q => q) "hello" ["hello world, hello", "other text"] 0 :=
  calculateBM25Scores_spec (fun q => q) "hello"
    ["hello world, hello", "other text"] 0 (by decide)

end VectraDB
